import Mathlib

/-!
Verification of the A3C training script (11_A3C_v2.py): shallow embedding of
the trajectory buffer, bootstrapped-return computation, loss computation,
the lock-protected shared episode counter, the worker loop, and the
gradient push / parameter pull synchronization point.

Numeric values carried by the program (rewards, value estimates, logits,
parameters) are modelled as rationals; the external autodiff framework
(forward pass of the two heads, `log_prob`, the Adam update rule) is
abstracted as function parameters, exactly at the boundary where the script
delegates to torch.
-/

namespace A3C

/-- The synchronization horizon `T_MAX = 5` from the script. -/
def T_MAX : ℕ := 5

/-- The episode limit `N_GAMES = 4000` from the script. -/
def N_GAMES : ℕ := 4000

/-- The loop body of `ActorCritic.calc_R`:
`for reward in self.rewards[::-1]: R = reward + self.gamma * R; batch_return.append(R)`.
The argument list is the (already reversed) reward list; the produced list is in
iteration (i.e. append) order, with the running accumulator `R` threaded through. -/
def calcRScan (gamma : ℚ) : ℚ → List ℚ → List ℚ
  | _, [] => []
  | R, r :: rs => (r + gamma * R) :: calcRScan gamma (r + gamma * R) rs

/-- `ActorCritic.calc_R` after the bootstrap has been computed: scan the rewards in
reverse chronological order starting from the bootstrap, then `batch_return.reverse()`
restores forward chronological order. -/
def calc_R (gamma : ℚ) (rewards : List ℚ) (bootstrap : ℚ) : List ℚ :=
  (calcRScan gamma bootstrap rewards.reverse).reverse

/-- `ActorCritic.calc_R(done)` including the bootstrap computation
`R = v_next[-1] * (1 - int(done))`. The model's value head is abstracted as
`v : σ → ℚ`; indexing `v_next[-1]` on an empty buffer fails in the script, which the
embedding reflects by returning `none` when `next_states` is empty. -/
def calcRModel {σ : Type} (v : σ → ℚ) (gamma : ℚ) (done : Bool)
    (rewards : List ℚ) (next_states : List σ) : Option (List ℚ) :=
  match next_states.getLast? with
  | none => none
  | some s => some (calc_R gamma rewards (v s * (1 - (if done then 1 else 0))))

/-- Length of the backward scan equals the length of the scanned list. -/
theorem calcRScan_length (gamma : ℚ) (R : ℚ) (l : List ℚ) :
    (calcRScan gamma R l).length = l.length := by
  induction l generalizing R with
  | nil => rfl
  | cons r rs ih => simp [calcRScan, ih]

/-- `calc_R` returns one return per buffered reward. -/
theorem calc_R_length (gamma : ℚ) (rewards : List ℚ) (bootstrap : ℚ) :
    (calc_R gamma rewards bootstrap).length = rewards.length := by
  simp [calc_R, calcRScan_length]

/-- Claim C2: in `calc_R(done)`, if `done` is true the bootstrap is exactly 0
regardless of the model's value estimate of the final buffered next state
(`R = v_next[-1] * (1 - int(done))` with `int(done) = 1`), and if `done` is false
the bootstrap is the value estimate of the final buffered next state. -/
theorem calc_R_bootstrap_done {σ : Type} (v : σ → ℚ) (gamma : ℚ)
    (rewards : List ℚ) (next_states : List σ) (hne : next_states ≠ []) :
    calcRModel v gamma true rewards next_states = some (calc_R gamma rewards 0) ∧
    calcRModel v gamma false rewards next_states =
      some (calc_R gamma rewards (v (next_states.getLast hne))) := by
  have hlast : next_states.getLast? = some (next_states.getLast hne) :=
    List.getLast?_eq_getLast next_states hne
  constructor
  · simp [calcRModel, hlast]
  · simp [calcRModel, hlast]

/-- Witness for C2 at a concrete input. -/
theorem calc_R_bootstrap_done_witness :
    calcRModel (fun x : ℚ => x + 1) (1/2) true [3] [(7 : ℚ)] =
      some (calc_R (1/2) [3] 0) ∧
    calcRModel (fun x : ℚ => x + 1) (1/2) false [3] [(7 : ℚ)] =
      some (calc_R (1/2) [3] (((7 : ℚ)) + 1)) := by
  have h := calc_R_bootstrap_done (fun x : ℚ => x + 1) (1/2) [3] [(7 : ℚ)]
    (by simp)
  simpa using h

/-- Claim C9: the bootstrap computation indexes the last element of the
next-state value estimates, so `calc_R` (hence `calc_loss`) fails on an empty
trajectory buffer and succeeds exactly when the buffer of next states is
non-empty. -/
theorem calc_R_requires_nonempty {σ : Type} (v : σ → ℚ) (gamma : ℚ)
    (done : Bool) (rewards : List ℚ) (next_states : List σ) :
    calcRModel v gamma done rewards [] = none ∧
    (next_states ≠ [] → (calcRModel v gamma done rewards next_states).isSome = true) := by
  constructor
  · rfl
  · intro hne
    rcases List.exists_cons_of_ne_nil hne with ⟨a, tl, rfl⟩
    simp [calcRModel, List.getLast?_eq_getLast _ (List.cons_ne_nil a tl)]

/-- Appending to the scanned list continues the scan from the last produced
accumulator (or the initial one when nothing was produced). -/
theorem calcRScan_append (gamma R : ℚ) (xs ys : List ℚ) :
    calcRScan gamma R (xs ++ ys) =
      calcRScan gamma R xs ++
        calcRScan gamma ((calcRScan gamma R xs).getLastD R) ys := by
  induction xs generalizing R with
  | nil => simp [calcRScan]
  | cons x xs ih =>
    simp only [List.cons_append, calcRScan, List.append_eq, ih, List.getLastD_cons]

/-- Forward characterization of the backward scan: the head return is the head
reward plus `gamma` times the next return (the head of the returns of the tail,
or the bootstrap when there is no tail). -/
theorem calc_R_cons (gamma bootstrap r : ℚ) (tl : List ℚ) :
    calc_R gamma (r :: tl) bootstrap =
      (r + gamma * (calc_R gamma tl bootstrap).headD bootstrap) ::
        calc_R gamma tl bootstrap := by
  simp [calc_R, List.reverse_cons, calcRScan_append, calcRScan, List.head?_reverse,
    List.getLastD_eq_getLast?, List.headD_eq_head?]

/-- On a non-empty list the final return is the final reward plus `gamma` times
the bootstrap. -/
theorem calc_R_last (gamma bootstrap : ℚ) (rewards : List ℚ) (h : rewards ≠ []) :
    (calc_R gamma rewards bootstrap).getD (rewards.length - 1) 0 =
      rewards.getD (rewards.length - 1) 0 + gamma * bootstrap := by
  induction rewards with
  | nil => exact absurd rfl h
  | cons r tl ih =>
    rcases tl with _ | ⟨r2, tl2⟩
    · simp [calc_R, calcRScan]
    · have htl : (r2 :: tl2) ≠ [] := List.cons_ne_nil r2 tl2
      have hlen : (r :: r2 :: tl2).length - 1 = ((r2 :: tl2).length - 1) + 1 := by
        simp
      rw [calc_R_cons, hlen]
      simpa using ih htl

/-- Interior recurrence of the returns: each return is its reward plus `gamma`
times the following return. -/
theorem calc_R_rec (gamma bootstrap : ℚ) (rewards : List ℚ) (t : ℕ)
    (h : t + 1 < rewards.length) :
    (calc_R gamma rewards bootstrap).getD t 0 =
      rewards.getD t 0 + gamma * (calc_R gamma rewards bootstrap).getD (t + 1) 0 := by
  induction rewards generalizing t with
  | nil => simp at h
  | cons r tl ih =>
    have htl : tl ≠ [] := by
      intro hnil
      rw [hnil] at h
      simp at h
    rcases t with _ | t2
    · rcases List.exists_cons_of_ne_nil htl with ⟨r2, tl2, rfl⟩
      rw [calc_R_cons]
      rw [calc_R_cons]
      simp [calcRScan]
    · have h2 : t2 + 1 < tl.length := by
        simpa using h
      rw [calc_R_cons]
      simpa using ih t2 h2

/-- Claim C1: for a buffered reward sequence of length `L ≥ 1` and discount
factor `gamma ∈ [0,1)`, `calc_R` returns exactly `L` returns in forward
chronological order satisfying the backward-scan recurrence
`R_t = reward_t + gamma * R_(t+1)` for `t < L - 1` and
`R_(L-1) = reward_(L-1) + gamma * bootstrap`. -/
theorem calc_R_backward_recurrence (gamma bootstrap : ℚ) (rewards : List ℚ)
    (_hg0 : 0 ≤ gamma) (_hg1 : gamma < 1) (hL : 1 ≤ rewards.length) :
    (calc_R gamma rewards bootstrap).length = rewards.length ∧
    (∀ t, t + 1 < rewards.length →
      (calc_R gamma rewards bootstrap).getD t 0 =
        rewards.getD t 0 + gamma * (calc_R gamma rewards bootstrap).getD (t + 1) 0) ∧
    (calc_R gamma rewards bootstrap).getD (rewards.length - 1) 0 =
      rewards.getD (rewards.length - 1) 0 + gamma * bootstrap := by
  refine ⟨calc_R_length gamma rewards bootstrap, ?_, ?_⟩
  · intro t ht
    exact calc_R_rec gamma bootstrap rewards t ht
  · have hne : rewards ≠ [] := by
      intro hnil
      rw [hnil] at hL
      simp at hL
    exact calc_R_last gamma bootstrap rewards hne

/-- Witness for C1 at `gamma = 1/2`, rewards `[1, 2]`, bootstrap `3`. -/
theorem calc_R_backward_recurrence_witness :
    (calc_R (1/2) [1, 2] 3).length = 2 ∧
    (∀ t, t + 1 < 2 →
      (calc_R (1/2) [1, 2] 3).getD t 0 =
        ([(1 : ℚ), 2]).getD t 0 + (1/2) * (calc_R (1/2) [1, 2] 3).getD (t + 1) 0) ∧
    (calc_R (1/2) [1, 2] 3).getD 1 0 = ([(1 : ℚ), 2]).getD 1 0 + (1/2) * 3 := by
  have h := calc_R_backward_recurrence (1/2) 3 [1, 2]
    (by norm_num) (by norm_num) (by norm_num)
  simpa using h

/-- Witness for C9 at a concrete input. -/
theorem calc_R_requires_nonempty_witness :
    calcRModel (fun x : ℚ => x) 1 true [2] ([] : List ℚ) = none ∧
    (calcRModel (fun x : ℚ => x) 1 true [2] [(4 : ℚ)]).isSome = true := by
  have h := calc_R_requires_nonempty (fun x : ℚ => x) 1 true [2] [(4 : ℚ)]
  exact ⟨h.1, h.2 (by simp)⟩

/-- The four per-model accumulators `self.states`, `self.actions`,
`self.rewards`, `self.next_states` of `ActorCritic`. States have abstract type
`σ` and actions abstract type `α`; rewards are numeric. -/
structure Memory (σ α : Type) where
  states : List σ
  actions : List α
  rewards : List ℚ
  next_states : List σ
deriving DecidableEq

/-- `ActorCritic.remember(state, action, reward, next_state)`: appends one
element to each of the four accumulators. -/
def remember {σ α : Type} (m : Memory σ α) (s : σ) (a : α) (r : ℚ) (s2 : σ) :
    Memory σ α :=
  ⟨m.states ++ [s], m.actions ++ [a], m.rewards ++ [r], m.next_states ++ [s2]⟩

/-- `ActorCritic.clear_memory()`: resets all four accumulators to empty lists. -/
def clear_memory {σ α : Type} (_ : Memory σ α) : Memory σ α :=
  ⟨[], [], [], []⟩

/-- All four accumulators have the same length. -/
def balanced {σ α : Type} (m : Memory σ α) : Prop :=
  m.states.length = m.actions.length ∧
  m.actions.length = m.rewards.length ∧
  m.rewards.length = m.next_states.length

/-- Buffer states reachable from the constructor's empty buffers by the only
two mutating operations the script performs, `remember` and `clear_memory`. -/
inductive Reachable {σ α : Type} : Memory σ α → Prop
  | init : Reachable ⟨[], [], [], []⟩
  | step (m : Memory σ α) (s : σ) (a : α) (r : ℚ) (s2 : σ) :
      Reachable m → Reachable (remember m s a r s2)
  | clear (m : Memory σ α) : Reachable m → Reachable (clear_memory m)

/-- Claim C8: for every state of the trajectory buffer, `clear_memory()` yields
empty buffers for all four tracked sequences, all with equal (zero) lengths. -/
theorem clear_memory_empties {σ α : Type} (m : Memory σ α) :
    (clear_memory m).states = [] ∧
    (clear_memory m).actions = [] ∧
    (clear_memory m).rewards = [] ∧
    (clear_memory m).next_states = [] ∧
    (clear_memory m).states.length = 0 ∧
    balanced (clear_memory m) := by
  simp [clear_memory, balanced]

/-- Claim C10: `remember` appends exactly one element to each of the four
sequences (leaving previous entries unchanged), `clear_memory` empties all
four, and consequently every buffer state reachable by these operations from
the empty buffers has all four lengths equal. -/
theorem buffer_lengths_equal {σ α : Type} (m : Memory σ α) (s : σ) (a : α)
    (r : ℚ) (s2 : σ) (h : Reachable m) :
    (remember m s a r s2).states = m.states ++ [s] ∧
    (remember m s a r s2).actions = m.actions ++ [a] ∧
    (remember m s a r s2).rewards = m.rewards ++ [r] ∧
    (remember m s a r s2).next_states = m.next_states ++ [s2] ∧
    balanced m := by
  refine ⟨rfl, rfl, rfl, rfl, ?_⟩
  induction h with
  | init => simp [balanced]
  | step m0 s0 a0 r0 s20 _ ih =>
    obtain ⟨h1, h2, h3⟩ := ih
    refine ⟨?_, ?_, ?_⟩ <;> simp [remember, h1, h2, h3]
  | clear m0 _ _ => simp [clear_memory, balanced]

/-- Witness for C10 at a concrete reachable buffer. -/
theorem buffer_lengths_equal_witness :
    (remember (remember (⟨[], [], [], []⟩ : Memory ℚ ℕ) 1 2 3 4) 5 6 7 8).states =
      (remember (⟨[], [], [], []⟩ : Memory ℚ ℕ) 1 2 3 4).states ++ [5] ∧
    (remember (remember (⟨[], [], [], []⟩ : Memory ℚ ℕ) 1 2 3 4) 5 6 7 8).actions =
      (remember (⟨[], [], [], []⟩ : Memory ℚ ℕ) 1 2 3 4).actions ++ [6] ∧
    (remember (remember (⟨[], [], [], []⟩ : Memory ℚ ℕ) 1 2 3 4) 5 6 7 8).rewards =
      (remember (⟨[], [], [], []⟩ : Memory ℚ ℕ) 1 2 3 4).rewards ++ [7] ∧
    (remember (remember (⟨[], [], [], []⟩ : Memory ℚ ℕ) 1 2 3 4) 5 6 7 8).next_states =
      (remember (⟨[], [], [], []⟩ : Memory ℚ ℕ) 1 2 3 4).next_states ++ [8] ∧
    balanced (remember (⟨[], [], [], []⟩ : Memory ℚ ℕ) 1 2 3 4) :=
  buffer_lengths_equal (remember (⟨[], [], [], []⟩ : Memory ℚ ℕ) 1 2 3 4) 5 6 7 8
    (Reachable.step _ 1 2 3 4 Reachable.init)

/-- `ActorCritic.calc_loss(done)`: recompute the returns, the value estimates of
the buffered states, the squared-error critic loss, the log-probabilities of
the taken actions (the categorical `log_prob` of the external framework is
abstracted as `logprob`), the advantage-weighted actor loss, and take the mean
of the elementwise sum. Elementwise tensor arithmetic on equal-length
one-dimensional tensors becomes `List.zipWith`. -/
def calc_loss {σ α : Type} (v : σ → ℚ) (logprob : σ → α → ℚ) (gamma : ℚ)
    (done : Bool) (m : Memory σ α) : Option ℚ :=
  match calcRModel v gamma done m.rewards m.next_states with
  | none => none
  | some returns =>
    let values := m.states.map v
    let critic_loss := List.zipWith (fun r w => (r - w) ^ 2) returns values
    let log_probs := List.zipWith logprob m.states m.actions
    let advantage := List.zipWith (fun r w => r - w) returns values
    let actor_loss := List.zipWith (fun l d => -l * d) log_probs advantage
    let total := List.zipWith (fun c a2 => c + a2) critic_loss actor_loss
    some (total.sum / (total.length : ℚ))

/-- A list sums to the sum of its entries read off by position. -/
theorem sum_eq_sum_getD (l : List ℚ) :
    l.sum = ∑ i in Finset.range l.length, l.getD i 0 := by
  induction l with
  | nil => simp
  | cons x xs ih =>
    simp only [List.sum_cons, List.length_cons, Finset.sum_range_succ',
      List.getD_cons_succ, List.getD_cons_zero, ih]
    ring

/-- Positionwise reading of `zipWith` inside the common length. -/
theorem getD_zipWith {β γ δ : Type} (f : β → γ → δ) (as : List β) (bs : List γ)
    (i : ℕ) (da : β) (db : γ) (dd : δ) (ha : i < as.length) (hb : i < bs.length) :
    (List.zipWith f as bs).getD i dd = f (as.getD i da) (bs.getD i db) := by
  induction as generalizing bs i with
  | nil => simp at ha
  | cons a as ih =>
    rcases bs with _ | ⟨b, bs⟩
    · simp at hb
    · rcases i with _ | i2
      · simp [List.zipWith]
      · simp only [List.zipWith, List.getD_cons_succ]
        exact ih bs i2 (by simpa using ha) (by simpa using hb)

/-- Positionwise reading of `map` inside the length. -/
theorem getD_map {β γ : Type} (f : β → γ) (as : List β) (i : ℕ) (da : β) (dc : γ)
    (h : i < as.length) :
    (as.map f).getD i dc = f (as.getD i da) := by
  induction as generalizing i with
  | nil => simp at h
  | cons a as ih =>
    rcases i with _ | i2
    · simp
    · simp only [List.map_cons, List.getD_cons_succ]
      exact ih i2 (by simpa using h)

/-- The bootstrap value `v_next[-1] * (1 - int(done))` of `calc_R`, written with
a total last-element access so it can appear in statements; it agrees with the
partial access of `calcRModel` on non-empty buffers. -/
def bootOf {σ : Type} [Inhabited σ] (v : σ → ℚ) (done : Bool)
    (next_states : List σ) : ℚ :=
  v (next_states.getLastD default) * (1 - (if done then 1 else 0))

/-- On a non-empty buffer, `calcRModel` succeeds with the `bootOf` bootstrap. -/
theorem calcRModel_eq_some {σ : Type} [Inhabited σ] (v : σ → ℚ) (gamma : ℚ)
    (done : Bool) (rewards : List ℚ) (next_states : List σ)
    (hne : next_states ≠ []) :
    calcRModel v gamma done rewards next_states =
      some (calc_R gamma rewards (bootOf v done next_states)) := by
  have hlast : next_states.getLast? = some (next_states.getLast hne) :=
    List.getLast?_eq_getLast next_states hne
  simp [calcRModel, hlast, bootOf, List.getLastD_eq_getLast?]

/-- Claim C6: for every non-empty buffered trajectory (all four buffers of one
length), `calc_loss(done)` equals the mean over buffered steps of
(critic loss + actor loss): per step, the squared error between computed
return and value estimate, plus the negative log-probability of the taken
action weighted by the return-minus-value advantage. -/
theorem calc_loss_mean_decomposition {σ α : Type} [Inhabited σ] [Inhabited α]
    (v : σ → ℚ) (logprob : σ → α → ℚ) (gamma : ℚ) (done : Bool) (m : Memory σ α)
    (ha : m.actions.length = m.states.length)
    (hr : m.rewards.length = m.states.length)
    (hn : m.next_states.length = m.states.length)
    (hL : 1 ≤ m.states.length) :
    calc_loss v logprob gamma done m =
      some ((∑ t in Finset.range m.states.length,
        (((calc_R gamma m.rewards (bootOf v done m.next_states)).getD t 0 -
            v (m.states.getD t default)) ^ 2 +
          (-(logprob (m.states.getD t default) (m.actions.getD t default))) *
            ((calc_R gamma m.rewards (bootOf v done m.next_states)).getD t 0 -
              v (m.states.getD t default)))) /
        (m.states.length : ℚ)) := by
  have hne : m.next_states ≠ [] := by
    intro hnil
    rw [hnil] at hn
    simp at hn
    omega
  have hmodel := calcRModel_eq_some v gamma done m.rewards m.next_states hne
  simp only [calc_loss, hmodel]
  set R := calc_R gamma m.rewards (bootOf v done m.next_states) with hR
  have hRlen : R.length = m.states.length := by
    rw [hR, calc_R_length, hr]
  have hvlen : (m.states.map v).length = m.states.length := by simp
  have hclen : (List.zipWith (fun r w => (r - w) ^ 2) R (m.states.map v)).length =
      m.states.length := by
    simp [List.length_zipWith, hRlen]
  have hplen : (List.zipWith logprob m.states m.actions).length =
      m.states.length := by
    simp [List.length_zipWith, ha]
  have hdlen : (List.zipWith (fun r w => r - w) R (m.states.map v)).length =
      m.states.length := by
    simp [List.length_zipWith, hRlen]
  have halen : (List.zipWith (fun l d => -l * d)
      (List.zipWith logprob m.states m.actions)
      (List.zipWith (fun r w => r - w) R (m.states.map v))).length =
      m.states.length := by
    simp [List.length_zipWith, hplen, hdlen, hRlen, ha]
  have htlen : (List.zipWith (fun c a2 => c + a2)
      (List.zipWith (fun r w => (r - w) ^ 2) R (m.states.map v))
      (List.zipWith (fun l d => -l * d)
        (List.zipWith logprob m.states m.actions)
        (List.zipWith (fun r w => r - w) R (m.states.map v)))).length =
      m.states.length := by
    simp [List.length_zipWith, hRlen, ha]
  rw [sum_eq_sum_getD, htlen]
  congr 1
  congr 1
  refine Finset.sum_congr rfl ?_
  intro i hi
  have hiL : i < m.states.length := Finset.mem_range.mp hi
  rw [getD_zipWith _ _ _ i 0 0 0 (by rw [hclen]; exact hiL) (by rw [halen]; exact hiL)]
  rw [getD_zipWith _ _ _ i 0 0 0 (by rw [hRlen]; exact hiL) (by rw [hvlen]; exact hiL)]
  rw [getD_zipWith _ _ _ i 0 0 0 (by rw [hplen]; exact hiL) (by rw [hdlen]; exact hiL)]
  rw [getD_zipWith _ _ _ i default default 0 hiL (by rw [ha]; exact hiL)]
  rw [getD_zipWith _ _ _ i 0 0 0 (by rw [hRlen]; exact hiL) (by rw [hvlen]; exact hiL)]
  rw [getD_map v m.states i default 0 hiL]

/-- Witness for C6 at a concrete one-step trajectory. -/
theorem calc_loss_mean_decomposition_witness :
    calc_loss (fun x : ℚ => x) (fun (s : ℚ) (a : ℕ) => s + a) (1/2) false
      (⟨[2], [0], [3], [4]⟩ : Memory ℚ ℕ) =
      some ((∑ t in Finset.range 1,
        (((calc_R (1/2) [3] (bootOf (fun x : ℚ => x) false [4])).getD t 0 -
            (([] : List ℚ) ++ [(2 : ℚ)]).getD t default) ^ 2 +
          (-((([] : List ℚ) ++ [(2 : ℚ)]).getD t default +
              (([] : List ℕ) ++ [(0 : ℕ)]).getD t default)) *
            ((calc_R (1/2) [3] (bootOf (fun x : ℚ => x) false [4])).getD t 0 -
              (([] : List ℚ) ++ [(2 : ℚ)]).getD t default))) /
        (1 : ℚ)) := by
  have h := calc_loss_mean_decomposition (fun x : ℚ => x)
    (fun (s : ℚ) (a : ℕ) => s + a) (1/2) false
    (⟨[2], [0], [3], [4]⟩ : Memory ℚ ℕ) (by simp) (by simp) (by simp) (by simp)
  simpa using h

/-- One execution of the critical section
`with self.episode_idx.get_lock(): self.episode_idx.value += 1`. The lock makes
the whole read-modify-write atomic, so a concurrent run of several workers is
an arbitrary serialization of whole increments. -/
def lockedIncrement (c : ℤ) : ℤ := c + 1

/-- Run a serialization schedule: each entry is the id of the worker whose
lock-protected increment executes next. -/
def runSchedule (init : ℤ) : List ℕ → ℤ
  | [] => init
  | _ :: rest => runSchedule (lockedIncrement init) rest

/-- Each serialized increment adds exactly one. -/
theorem runSchedule_eq (sched : List ℕ) : ∀ init : ℤ,
    runSchedule init sched = init + sched.length := by
  induction sched with
  | nil => intro init; simp [runSchedule]
  | cons a tl ih =>
    intro init
    rw [runSchedule, ih, lockedIncrement, List.length_cons]
    push_cast
    ring

/-- A schedule over `W` workers has as many events as the workers' counts. -/
theorem length_eq_sum_count (W : ℕ) (sched : List ℕ)
    (hmem : ∀ w ∈ sched, w < W) :
    sched.length = ∑ w in Finset.range W, sched.count w := by
  induction sched with
  | nil => simp
  | cons a tl ih =>
    have haW : a < W := hmem a (List.mem_cons_self a tl)
    have hmem2 : ∀ w ∈ tl, w < W := fun w hw => hmem w (List.mem_cons_of_mem a hw)
    rw [List.length_cons, ih hmem2]
    have hcount : ∀ w ∈ Finset.range W, (a :: tl).count w =
        tl.count w + if a = w then 1 else 0 := by
      intro w _
      simp [List.count_cons]
    rw [Finset.sum_congr rfl hcount, Finset.sum_add_distrib,
      Finset.sum_ite_eq (Finset.range W) a (fun _ => 1)]
    simp [Finset.mem_range.mpr haW]

/-- Claim C3: the episode counter is monotonically non-decreasing along every
serialization of the lock-protected increments, and when `W` concurrent
workers each perform `k` increments the final value is the initial value plus
`W * k` (no lost updates); in particular, two workers each issuing 1000
increments concurrently leave a counter started at 0 at exactly 2000. -/
theorem episode_counter_no_lost_updates (init : ℤ) (W k : ℕ) (sched : List ℕ)
    (hmem : ∀ w ∈ sched, w < W) (hcount : ∀ w, w < W → sched.count w = k) :
    (∀ n : ℕ, runSchedule init (sched.take n) ≤ runSchedule init (sched.take (n + 1))) ∧
    runSchedule init sched = init + W * k ∧
    (init = 0 → W = 2 → k = 1000 → runSchedule init sched = 2000) := by
  have hfinal : runSchedule init sched = init + W * k := by
    rw [runSchedule_eq, length_eq_sum_count W sched hmem]
    have : ∑ w in Finset.range W, sched.count w = W * k := by
      rw [Finset.sum_congr rfl (fun w hw => hcount w (Finset.mem_range.mp hw))]
      simp [Finset.sum_const, mul_comm]
    rw [this]
    push_cast
    ring
  refine ⟨?_, hfinal, ?_⟩
  · intro n
    rw [runSchedule_eq, runSchedule_eq]
    have hlen : (sched.take n).length ≤ (sched.take (n + 1)).length := by
      simp only [List.length_take]
      omega
    omega
  · intro h0 hW hk
    rw [hfinal, h0, hW, hk]
    norm_num

/-- Witness for C3: two workers, one increment each, starting from 5. -/
theorem episode_counter_no_lost_updates_witness :
    (∀ n : ℕ, runSchedule 5 (([0, 1] : List ℕ).take n) ≤
      runSchedule 5 (([0, 1] : List ℕ).take (n + 1))) ∧
    runSchedule 5 [0, 1] = 5 + 2 * 1 ∧
    ((5 : ℤ) = 0 → (2 : ℕ) = 2 → (1 : ℕ) = 1000 → runSchedule 5 [0, 1] = 2000) :=
  episode_counter_no_lost_updates 5 2 1 [0, 1] (by decide) (by decide)

/-- One model parameter: its value and its gradient slot. -/
structure Param where
  val : ℚ
  grad : ℚ
deriving DecidableEq

/-- `global_param._grad = local_param.grad` over
`zip(local.parameters(), global.parameters())`: every shared parameter keeps
its value and has its gradient slot overwritten (not accumulated) with the
local gradient. -/
def pushGrads (localPs sharedPs : List Param) : List Param :=
  List.zipWith (fun lp gp => ⟨gp.val, lp.grad⟩) localPs sharedPs

/-- `optimizer.step()` on the shared parameters: the external Adam rule is
abstracted as `upd`, applied to each parameter value and whatever gradient is
currently in its slot. -/
def optStep (upd : ℚ → ℚ → ℚ) (ps : List Param) : List Param :=
  ps.map fun p => ⟨upd p.val p.grad, p.grad⟩

/-- `local.load_state_dict(global.state_dict())`: local parameter values are
overwritten with the shared ones (gradient slots are not in the state dict). -/
def pullParams (localPs sharedPs : List Param) : List Param :=
  List.zipWith (fun lp gp => ⟨gp.val, lp.grad⟩) localPs sharedPs

/-- The state a synchronization point acts on: the shared model's parameters,
the worker's local parameters (whose gradient slots hold the freshly
back-propagated local gradients), and the worker's trajectory buffer. -/
structure WorkerSync (σ α : Type) where
  sharedPs : List Param
  localPs : List Param
  mem : Memory σ α

/-- The synchronization point of `Agent.run`: push local gradients onto the
shared gradient slots, step the shared optimizer, pull the updated shared
parameters into the local model, clear the trajectory buffer. -/
def syncPoint {σ α : Type} (upd : ℚ → ℚ → ℚ) (st : WorkerSync σ α) :
    WorkerSync σ α :=
  let shared2 := optStep upd (pushGrads st.localPs st.sharedPs)
  ⟨shared2, pullParams st.localPs shared2, clear_memory st.mem⟩

/-- Pushing gradients installs exactly the local gradients. -/
theorem pushGrads_map_grad (l : List Param) : ∀ s : List Param,
    l.length = s.length →
    (pushGrads l s).map Param.grad = l.map Param.grad := by
  induction l with
  | nil => intro s h; simp [pushGrads]
  | cons a tl ih =>
    intro s h
    rcases s with _ | ⟨b, s2⟩
    · simp at h
    · simp only [pushGrads, List.zipWith_cons_cons, List.map_cons, List.cons.injEq]
      exact ⟨trivial, ih s2 (by simpa using h)⟩

/-- Pushing gradients leaves the shared parameter values unchanged. -/
theorem pushGrads_map_val (l : List Param) : ∀ s : List Param,
    l.length = s.length →
    (pushGrads l s).map Param.val = s.map Param.val := by
  induction l with
  | nil =>
    intro s h
    rcases s with _ | ⟨b, s2⟩
    · simp [pushGrads]
    · simp at h
  | cons a tl ih =>
    intro s h
    rcases s with _ | ⟨b, s2⟩
    · simp at h
    · simp only [pushGrads, List.zipWith_cons_cons, List.map_cons, List.cons.injEq]
      exact ⟨trivial, ih s2 (by simpa using h)⟩

/-- Pulling parameters installs exactly the shared values. -/
theorem pullParams_map_val (l : List Param) : ∀ s : List Param,
    l.length = s.length →
    (pullParams l s).map Param.val = s.map Param.val := by
  induction l with
  | nil =>
    intro s h
    rcases s with _ | ⟨b, s2⟩
    · simp [pullParams]
    · simp at h
  | cons a tl ih =>
    intro s h
    rcases s with _ | ⟨b, s2⟩
    · simp at h
    · simp only [pullParams, List.zipWith_cons_cons, List.map_cons, List.cons.injEq]
      exact ⟨trivial, ih s2 (by simpa using h)⟩

/-- The optimizer step updates each value from the present gradient. -/
theorem optStep_map_val (upd : ℚ → ℚ → ℚ) (ps : List Param) :
    (optStep upd ps).map Param.val =
      List.zipWith upd (ps.map Param.val) (ps.map Param.grad) := by
  induction ps with
  | nil => rfl
  | cons p tl ih =>
    simp only [optStep, List.map_cons, List.zipWith_cons_cons, List.cons.injEq] at *
    exact ⟨trivial, ih⟩

/-- The optimizer step does not change the gradient slots. -/
theorem optStep_map_grad (upd : ℚ → ℚ → ℚ) (ps : List Param) :
    (optStep upd ps).map Param.grad = ps.map Param.grad := by
  induction ps with
  | nil => rfl
  | cons p tl ih =>
    simp only [optStep, List.map_cons, List.cons.injEq] at *
    exact ⟨trivial, ih⟩

/-- Lengths through `pushGrads`. -/
theorem pushGrads_length (l s : List Param) :
    (pushGrads l s).length = min l.length s.length := by
  simp [pushGrads]

/-- Lengths through `optStep`. -/
theorem optStep_length (upd : ℚ → ℚ → ℚ) (ps : List Param) :
    (optStep upd ps).length = ps.length := by
  simp [optStep]

/-- Claim C5: at a synchronization point the worker overwrites (does not
accumulate into) each shared parameter's gradient slot with the local
gradient, steps the shared optimizer on whatever gradients are present, pulls
the updated shared values back so the local model equals the shared model
immediately after, and clears the local trajectory buffer. -/
theorem sync_point_spec {σ α : Type} (upd : ℚ → ℚ → ℚ) (st : WorkerSync σ α)
    (hlen : st.localPs.length = st.sharedPs.length) :
    (syncPoint upd st).sharedPs.map Param.grad = st.localPs.map Param.grad ∧
    (syncPoint upd st).sharedPs.map Param.val =
      List.zipWith upd (st.sharedPs.map Param.val) (st.localPs.map Param.grad) ∧
    (syncPoint upd st).localPs.map Param.val =
      (syncPoint upd st).sharedPs.map Param.val ∧
    (syncPoint upd st).mem = ⟨[], [], [], []⟩ := by
  have hlen2 : st.localPs.length =
      (optStep upd (pushGrads st.localPs st.sharedPs)).length := by
    rw [optStep_length, pushGrads_length]
    omega
  refine ⟨?_, ?_, ?_, rfl⟩
  · simp only [syncPoint]
    rw [optStep_map_grad, pushGrads_map_grad _ _ hlen]
  · simp only [syncPoint]
    rw [optStep_map_val, pushGrads_map_val _ _ hlen, pushGrads_map_grad _ _ hlen]
  · simp only [syncPoint]
    rw [pullParams_map_val _ _ hlen2]

/-- Witness for C5 at a concrete one-parameter state. -/
theorem sync_point_spec_witness :
    (syncPoint (fun p g => p - g)
        (⟨[⟨3, 4⟩], [⟨1, 2⟩], ⟨[9], [8], [7], [6]⟩⟩ : WorkerSync ℚ ℕ)).sharedPs.map
        Param.grad = ([⟨1, 2⟩] : List Param).map Param.grad ∧
    (syncPoint (fun p g => p - g)
        (⟨[⟨3, 4⟩], [⟨1, 2⟩], ⟨[9], [8], [7], [6]⟩⟩ : WorkerSync ℚ ℕ)).sharedPs.map
        Param.val =
      List.zipWith (fun p g => p - g) (([⟨3, 4⟩] : List Param).map Param.val)
        (([⟨1, 2⟩] : List Param).map Param.grad) ∧
    (syncPoint (fun p g => p - g)
        (⟨[⟨3, 4⟩], [⟨1, 2⟩], ⟨[9], [8], [7], [6]⟩⟩ : WorkerSync ℚ ℕ)).localPs.map
        Param.val =
      (syncPoint (fun p g => p - g)
        (⟨[⟨3, 4⟩], [⟨1, 2⟩], ⟨[9], [8], [7], [6]⟩⟩ : WorkerSync ℚ ℕ)).sharedPs.map
        Param.val ∧
    (syncPoint (fun p g => p - g)
        (⟨[⟨3, 4⟩], [⟨1, 2⟩], ⟨[9], [8], [7], [6]⟩⟩ : WorkerSync ℚ ℕ)).mem =
      ⟨[], [], [], []⟩ :=
  sync_point_spec (fun p g => p - g)
    (⟨[⟨3, 4⟩], [⟨1, 2⟩], ⟨[9], [8], [7], [6]⟩⟩ : WorkerSync ℚ ℕ) rfl

/-- The three control positions of `Agent.run` relative to the episode
counter: about to test `self.episode_idx.value < N_GAMES`, inside an episode,
or past the loop. -/
inductive WPhase
  | checking
  | inEpisode
  | finished
deriving DecidableEq

/-- Observable worker state: control position, shared counter value, this
worker's reward log, and the number of episodes started. -/
structure WorkerObs where
  phase : WPhase
  counter : ℕ
  log : List ℚ
  episodes : ℕ
deriving DecidableEq

/-- One observable transition of `Agent.run`, the whole episode body collapsed
into a single step producing the episode's `score`: the counter is read only
at the loop test; finishing an episode unconditionally performs one
lock-protected increment and one reward-log append, whatever the counter then
holds; past the loop the worker only plots and stops. -/
def wstep (limit : ℕ) (score : ℚ) : WorkerObs → WorkerObs
  | ⟨.checking, c, log, e⟩ =>
    if c < limit then ⟨.inEpisode, c, log, e + 1⟩ else ⟨.finished, c, log, e⟩
  | ⟨.inEpisode, c, log, e⟩ => ⟨.checking, c + 1, log ++ [score], e⟩
  | ⟨.finished, c, log, e⟩ => ⟨.finished, c, log, e⟩

/-- Run `n` observable worker transitions. -/
def wrun (limit : ℕ) (score : ℚ) : ℕ → WorkerObs → WorkerObs
  | 0, st => st
  | n + 1, st => wrun limit score n (wstep limit score st)

/-- Claim C7: the counter is checked only at episode boundaries — a worker
already inside an episode when the counter has reached the limit still
finishes it, performing exactly one more increment and one more log append —
and with a limit of 1 a single worker starting at counter 0 executes exactly
one episode, moves the counter from 0 to 1, and never starts a second
episode. -/
theorem counter_checked_at_episode_boundaries (limit : ℕ) (score : ℚ)
    (c e : ℕ) (log : List ℚ) (_hreached : limit ≤ c) :
    wstep limit score ⟨.inEpisode, c, log, e⟩ =
      ⟨.checking, c + 1, log ++ [score], e⟩ ∧
    (∀ n : ℕ, wrun 1 score (n + 3) ⟨.checking, 0, [], 0⟩ =
      ⟨.finished, 1, [score], 1⟩) := by
  refine ⟨rfl, ?_⟩
  intro n
  have hfix : ∀ k : ℕ,
      wrun 1 score k ⟨WPhase.finished, 1, [score], 1⟩ =
        ⟨WPhase.finished, 1, [score], 1⟩ := by
    intro k
    induction k with
    | zero => rfl
    | succ k2 ih => simpa [wrun, wstep] using ih
  simpa [wrun, wstep] using hfix n

/-- Witness for C7 at a concrete inside-episode state past the limit. -/
theorem counter_checked_at_episode_boundaries_witness :
    wstep 1 5 ⟨WPhase.inEpisode, 1, [], 1⟩ =
      ⟨WPhase.checking, 1 + 1, [] ++ [(5 : ℚ)], 1⟩ ∧
    (∀ n : ℕ, wrun 1 5 (n + 3) ⟨WPhase.checking, 0, [], 0⟩ =
      ⟨WPhase.finished, 1, [(5 : ℚ)], 1⟩) :=
  counter_checked_at_episode_boundaries 1 5 1 1 [] (by norm_num)

/-- One synchronization point recorded during a worker run: the length of the
buffered segment pushed there, the `done` flag, and the value of the global
step counter `t_step` there. -/
structure SyncRecord where
  len : ℕ
  done : Bool
  tstep : ℕ
deriving DecidableEq

/-- The inner `while not done` loop of `Agent.run` with `n` environment steps
remaining in the episode (`done` becomes true on the last one). Each iteration
buffers one transition (`remember`), synchronizes when
`t_step % T_MAX == 0 or done` (recording the pushed segment) and then clears
the buffer; `t_step` increments every iteration and is never reset. The run is
summarized by the final `t_step` and the synchronization records. -/
def runEpisode : ℕ → ℕ → ℕ → List SyncRecord → ℕ × List SyncRecord
  | 0, t, _, log => (t, log)
  | 1, t, buf, log => (t + 1, log ++ [⟨buf + 1, true, t⟩])
  | n + 2, t, buf, log =>
    if t % T_MAX = 0 then
      runEpisode (n + 1) (t + 1) 0 (log ++ [⟨buf + 1, false, t⟩])
    else
      runEpisode (n + 1) (t + 1) (buf + 1) log

/-- The outer loop of `Agent.run` over a list of per-episode step counts
(each episode has at least one step, `done` on its last). The buffer is
cleared at each episode start (`clear_memory`), and `t_step` carries over
across episodes. -/
def runWorker : List ℕ → ℕ → List SyncRecord → ℕ × List SyncRecord
  | [], t, log => (t, log)
  | n :: eps, t, log =>
    runWorker eps (runEpisode n t 0 log).1 (runEpisode n t 0 log).2

/-- A full worker run: `t_step = 1` initially, no records yet. -/
def runWorkerFromStart (eps : List ℕ) : ℕ × List SyncRecord :=
  runWorker eps 1 []

/-- Counterexample to claim C4 as stated: after a first episode of 3 steps, a
second episode hits `t_step % T_MAX == 0` two steps in, so a segment of
length 2 < 5 is pushed although the episode did not terminate. -/
theorem trajectory_segment_short_cex :
    ¬ (∀ p ∈ (runWorkerFromStart [3, 7]).2, p.len < T_MAX → p.done = true) := by
  decide

/-- Invariant of the inner loop: entering an iteration at step counter `t`
with `buf` buffered transitions, `buf ≤ (t - 1) % T_MAX`; hence every pushed
segment has between 1 and `T_MAX` transitions and is pushed either because the
episode ended or because `t_step` is a multiple of `T_MAX`. -/
theorem runEpisode_records (n : ℕ) : ∀ (t buf : ℕ) (log : List SyncRecord),
    buf ≤ (t - 1) % T_MAX →
    ∀ p ∈ (runEpisode n t buf log).2, p ∈ log ∨
      (1 ≤ p.len ∧ p.len ≤ T_MAX ∧ (p.done = true ∨ p.tstep % T_MAX = 0)) := by
  induction n using Nat.strong_induction_on with
  | _ n ih =>
    intro t buf log hbuf p hp
    have hT : T_MAX = 5 := rfl
    rw [hT] at hbuf
    have hlt : (t - 1) % 5 < 5 := Nat.mod_lt _ (by norm_num)
    rcases n with _ | n1
    · exact Or.inl hp
    rcases n1 with _ | n2
    · rw [runEpisode] at hp
      rcases List.mem_append.mp hp with h | h
      · exact Or.inl h
      · have hp2 : p = ⟨buf + 1, true, t⟩ := by simpa using h
        subst hp2
        refine Or.inr ⟨?_, ?_, Or.inl rfl⟩
        · show 1 ≤ buf + 1
          omega
        · show buf + 1 ≤ T_MAX
          rw [hT]
          omega
    · rw [runEpisode] at hp
      by_cases hmod : t % T_MAX = 0
      · rw [if_pos hmod] at hp
        rcases ih (n2 + 1) (by omega) (t + 1) 0 _ (Nat.zero_le _) p hp with h | h
        · rcases List.mem_append.mp h with h2 | h2
          · exact Or.inl h2
          · have hp2 : p = ⟨buf + 1, false, t⟩ := by simpa using h2
            subst hp2
            refine Or.inr ⟨?_, ?_, Or.inr ?_⟩
            · show 1 ≤ buf + 1
              omega
            · show buf + 1 ≤ T_MAX
              rw [hT]
              omega
            · show t % T_MAX = 0
              exact hmod
        · exact Or.inr h
      · rw [if_neg hmod] at hp
        have hmod5 : ¬ t % 5 = 0 := by
          rw [hT] at hmod
          exact hmod
        have hbuf2 : buf + 1 ≤ (t + 1 - 1) % T_MAX := by
          rw [hT]
          omega
        exact ih (n2 + 1) (by omega) (t + 1) (buf + 1) log hbuf2 p hp

/-- The outer loop preserves the record property (each episode starts with an
empty buffer). -/
theorem runWorker_records (eps : List ℕ) : ∀ (t : ℕ) (log : List SyncRecord),
    (∀ p ∈ log, 1 ≤ p.len ∧ p.len ≤ T_MAX ∧ (p.done = true ∨ p.tstep % T_MAX = 0)) →
    ∀ p ∈ (runWorker eps t log).2,
      1 ≤ p.len ∧ p.len ≤ T_MAX ∧ (p.done = true ∨ p.tstep % T_MAX = 0) := by
  induction eps with
  | nil => intro t log hlog p hp; exact hlog p hp
  | cons n eps2 ih =>
    intro t log hlog p hp
    refine ih _ _ ?_ p hp
    intro q hq
    rcases runEpisode_records n t 0 log (Nat.zero_le _) q hq with h | h
    · exact hlog q h
    · exact h

/-- Claim C4 (amended): every segment pushed at a synchronization point holds
between 1 and `T_MAX = 5` transitions; a segment shorter than 5 is pushed
either because the episode terminated or because the global step counter
`t_step` (never reset across episodes) reached a multiple of `T_MAX`; the
buffer is created empty at episode start and cleared after each
synchronization point (by construction of the loop model). -/
theorem trajectory_segment_bounds (eps : List ℕ) (p : SyncRecord)
    (hp : p ∈ (runWorkerFromStart eps).2) :
    1 ≤ p.len ∧ p.len ≤ T_MAX ∧ (p.done = true ∨ p.tstep % T_MAX = 0) :=
  runWorker_records eps 1 [] (by simp) p hp

/-- Witness for C4 on a concrete run. -/
theorem trajectory_segment_bounds_witness :
    1 ≤ (⟨3, true, 3⟩ : SyncRecord).len ∧
    (⟨3, true, 3⟩ : SyncRecord).len ≤ T_MAX ∧
    ((⟨3, true, 3⟩ : SyncRecord).done = true ∨
      (⟨3, true, 3⟩ : SyncRecord).tstep % T_MAX = 0) :=
  trajectory_segment_bounds [3, 7] ⟨3, true, 3⟩ (by decide)

end A3C

